import Mathlib

/-!
# Verification of the BrainFuck toolchain core

Shallow embedding of `src/lib.rs`: the bracket-matching scan and tape machine
shared by `interpret` (lib.rs:216-301) and `eval` (lib.rs:442-517), the
interactive loop `run_in_terminal` (lib.rs:409-440), the balance check of
`get_code` (lib.rs:204-214), and the peephole optimizer / code generator
`gen_optimized` (lib.rs:538-610) together with a small-step semantics for the
C statements it emits.  Machine bytes (`u8` cells, `unsigned char` cells) are
modelled as `Nat` with explicit `% 256`; fallible paths return sum types and
`.unwrap()` panics are modelled by dedicated result constructors.
-/

namespace BF

/-- The instruction characters kept by sanitization:
`contents.retain(|c| "<>[]+-.,#|".contains(c))` (lib.rs:222, 340, 427). -/
def bfAlphabet : List Char := ['<', '>', '[', ']', '+', '-', '.', ',', '#', '|']

/-- Sanitization: drop every character outside the instruction alphabet. -/
def sanitize (s : List Char) : List Char := s.filter (fun c => bfAlphabet.contains c)

/-- Count of loop-open characters (`contents.matches('[').count()`, lib.rs:210). -/
def opens (w : List Char) : Nat := w.countP (fun c => c == '[')

/-- Count of loop-close characters (`contents.matches(']').count()`, lib.rs:210). -/
def closes (w : List Char) : Nat := w.countP (fun c => c == ']')

/-- The labelled failures of lib.rs, one constructor per distinct `Err(..)` string:
`outOfBound` embeds "Memory index out of bound" (lib.rs:248, 256, 471, 479),
`invalidChar c` embeds "Invalid BrainFuck character: 'c'" (lib.rs:290, 512, 606)
-- the error names the offending character -- and `unbalanced` embeds
"Unbalanced Brackets" (lib.rs:211). -/
inductive Err where
  | outOfBound
  | invalidChar (c : Char)
  | unbalanced
deriving DecidableEq, Repr

/-- The balance check performed by `get_code` (lib.rs:210-213): equal counts of the
two bracket characters.  (Reading the file is external IO and not modelled.) -/
def get_code (s : List Char) : Except Err (List Char) :=
  if opens s = closes s then .ok s else .error .unbalanced

/-- Association-list lookup mirroring `HashMap::get` on the brace map.  Every key is
inserted exactly once by the scan, so which duplicate would win is irrelevant. -/
def lookupNat : List (Nat × Nat) → Nat → Option Nat
  | [], _ => none
  | (k, v) :: rest, key => if k = key then some v else lookupNat rest key

/-- The bracket-matching scan shared verbatim by `interpret` (lib.rs:232-240) and
`eval` (lib.rs:455-463): push each loop-open position; at a loop-close pop the last
open position and record the pair in both directions.  The `none` result models the
`temp.pop().unwrap()` panic at a loop-close with an empty stack. -/
def scanAux : List Char → Nat → List Nat → List (Nat × Nat) → Option (List Nat × List (Nat × Nat))
  | [], _, st, bm => some (st, bm)
  | c :: cs, pos, st, bm =>
    if c = '[' then scanAux cs (pos + 1) (pos :: st) bm
    else if c = ']' then
      match st with
      | [] => none
      | start :: st' => scanAux cs (pos + 1) st' ((start, pos) :: (pos, start) :: bm)
    else scanAux cs (pos + 1) st bm

/-- Every prefix of the stream has at least as many loop-opens as loop-closes. -/
def PrefixSafe (w : List Char) : Prop :=
  ∀ n, n ≤ w.length → closes (w.take n) ≤ opens (w.take n)

/-- The loop-open and loop-close symbols of `w` are properly nested: no prefix closes
more loops than it has opened, and the total counts agree. -/
def Nested (w : List Char) : Prop := PrefixSafe w ∧ opens w = closes w

instance decPrefixSafe (w : List Char) : Decidable (PrefixSafe w) := by
  unfold PrefixSafe; exact Nat.decidableBallLE w.length _

instance decNested (w : List Char) : Decidable (Nested w) := by
  unfold Nested; infer_instance

/-- The slice of `w` from position `a` (inclusive) to position `b` (exclusive). -/
def seg (w : List Char) (a b : Nat) : List Char := (w.take b).drop a

/-- Position `q` holds the loop-close syntactically matching the loop-open at
position `p`: `p` is a loop-open, `q` a later loop-close, and the characters
strictly between them are properly nested. -/
def isMatch (w : List Char) (p q : Nat) : Prop :=
  p < q ∧ q < w.length ∧ w.getD p ' ' = '[' ∧ w.getD q ' ' = ']' ∧ Nested (seg w (p + 1) q)

instance decIsMatch (w : List Char) (p q : Nat) : Decidable (isMatch w p q) := by
  unfold isMatch; infer_instance

/-- Dyck-style grammar of properly nested streams (induction device for the
correctness proof of the scan): empty, a non-bracket followed by a nested stream,
or a bracketed nested stream followed by a nested stream. -/
inductive Dyck : List Char → Prop where
  | nil : Dyck []
  | plain {c : Char} {w : List Char} : c ≠ '[' → c ≠ ']' → Dyck w → Dyck (c :: w)
  | brak {w v : List Char} : Dyck w → Dyck v → Dyck ('[' :: w ++ ']' :: v)

/-- All keys of the association list lie in the half-open interval `[lo, hi)`
(bookkeeping for the ranges of brace-map fragments). -/
def KeysBetween (ps : List (Nat × Nat)) (lo hi : Nat) : Prop :=
  ∀ kv ∈ ps, lo ≤ kv.1 ∧ kv.1 < hi

/-- Tape machine state threaded through the execution loop of `interpret` / `eval`:
the byte tape `mem`, the cursor `cellptr`, the instruction pointer `codeptr`, the
bytes the blocking `getch` collaborator will deliver (`input`), the bytes printed
so far (`output`), and the debug counter. -/
structure IState where
  mem : List Nat
  cellptr : Nat
  codeptr : Nat
  input : List Nat
  output : List Nat
  debugCount : Nat
deriving DecidableEq, Repr

/-- Result of one loop iteration: continue, normal loop exit (stream exhausted),
`return Err(..)`, an `.unwrap()` panic (missing brace-map entry), or a blocking
read with no keystroke available. -/
inductive StepRes where
  | cont (st : IState)
  | halt (st : IState)
  | fail (e : Err) (st : IState)
  | panicked
  | blocked (st : IState)
deriving DecidableEq, Repr

/-- One iteration of the execution loop shared by `interpret` (lib.rs:242-295) and
`eval` (lib.rs:465-515).  Cells are `u8`, so increment and decrement wrap modulo 256
(Rust's defined wrapping semantics for the release profile; the spec fixes
wrap-mod-256 as the documented policy).  The debug statements print to stdout via
`println!`, which is not part of the modelled program output; `#` additionally
increments the debug counter. -/
def interpStep (contents : List Char) (bm : List (Nat × Nat)) (debug : Bool) (memSize : Nat)
    (st : IState) : StepRes :=
  if st.codeptr < contents.length then
    let code := contents.getD st.codeptr ' '
    if code = '>' then
      if memSize < st.cellptr + 1 then .fail .outOfBound st
      else
        .cont { st with
          cellptr := st.cellptr + 1,
          mem := if st.cellptr + 1 = st.mem.length then st.mem ++ [0] else st.mem,
          codeptr := st.codeptr + 1 }
    else if code = '<' then
      if st.cellptr = 0 then .fail .outOfBound st
      else .cont { st with cellptr := st.cellptr - 1, codeptr := st.codeptr + 1 }
    else if code = '+' then
      .cont { st with
        mem := st.mem.set st.cellptr ((st.mem.getD st.cellptr 0 + 1) % 256),
        codeptr := st.codeptr + 1 }
    else if code = '-' then
      .cont { st with
        mem := st.mem.set st.cellptr ((st.mem.getD st.cellptr 0 + 255) % 256),
        codeptr := st.codeptr + 1 }
    else if code = '.' then
      .cont { st with
        output := st.output ++ [st.mem.getD st.cellptr 0],
        codeptr := st.codeptr + 1 }
    else if code = ',' then
      match st.input with
      | [] => .blocked st
      | b :: rest =>
        .cont { st with
          mem := st.mem.set st.cellptr (b % 256),
          input := rest,
          codeptr := st.codeptr + 1 }
    else if code = '[' then
      if st.mem.getD st.cellptr 0 = 0 then
        match lookupNat bm st.codeptr with
        | none => .panicked
        | some j => .cont { st with codeptr := j + 1 }
      else .cont { st with codeptr := st.codeptr + 1 }
    else if code = ']' then
      if st.mem.getD st.cellptr 0 ≠ 0 then
        match lookupNat bm st.codeptr with
        | none => .panicked
        | some j => .cont { st with codeptr := j + 1 }
      else .cont { st with codeptr := st.codeptr + 1 }
    else if code = '#' ∧ debug then
      .cont { st with debugCount := st.debugCount + 1, codeptr := st.codeptr + 1 }
    else if code = '|' ∧ debug then
      .cont { st with codeptr := st.codeptr + 1 }
    else .fail (.invalidChar code) st
  else .halt st

/-- Final outcome of running the tape machine: normal completion, a labelled
failure, a panic, a read blocked forever, or exhaustion of the step budget
(the Rust loop has no budget; `outOfFuel` marks runs longer than the budget). -/
inductive RunResult where
  | ok (st : IState)
  | err (e : Err) (st : IState)
  | panicked
  | blocked (st : IState)
  | outOfFuel (st : IState)
deriving DecidableEq, Repr

/-- Iterate `interpStep` up to `fuel` times, mirroring the
`while codeptr < contents.len()` loop. -/
def interpRun (contents : List Char) (bm : List (Nat × Nat)) (debug : Bool) (memSize : Nat) :
    Nat → IState → RunResult
  | 0, st => .outOfFuel st
  | fuel + 1, st =>
    match interpStep contents bm debug memSize st with
    | .cont st' => interpRun contents bm debug memSize fuel st'
    | .halt st' => .ok st'
    | .fail e st' => .err e st'
    | .panicked => .panicked
    | .blocked st' => .blocked st'

/-- `interpret` (lib.rs:216-301): sanitize unless verbose, allocate `offset + 1`
zero cells with the cursor at `offset`, build the brace map, then run the loop.
`panicked` models the scan's `.unwrap()` panic reaching the top level. -/
def interpret (contents : List Char) (verbose debug : Bool) (memSize offset : Nat)
    (input : List Nat) (fuel : Nat) : RunResult :=
  let contents := if verbose then contents else sanitize contents
  match scanAux contents 0 [] [] with
  | none => .panicked
  | some (_, bm) =>
    interpRun contents bm debug memSize fuel
      ⟨List.replicate (offset + 1) 0, offset, 0, input, [], 0⟩

/-- `eval` (lib.rs:442-517): the same machine run on a caller-supplied tape and
cursor (the interactive session state); no sanitization happens here (the caller
`run_in_terminal` sanitizes). -/
def eval (contents : List Char) (mem : List Nat) (cellptr : Nat) (debug : Bool)
    (memSize : Nat) (input : List Nat) (fuel : Nat) : RunResult :=
  match scanAux contents 0 [] [] with
  | none => .panicked
  | some (_, bm) =>
    interpRun contents bm debug memSize fuel ⟨mem, cellptr, 0, input, [], 0⟩

/-- The line that ends the interactive session. -/
def quitLine : List Char := ['q', 'u', 'i', 't']

/-- Outcome of the interactive loop: still prompting when the supplied lines ran
out, `Ok(())` after "quit", or the first evaluation failure propagated out of the
loop by the `?` operator (lib.rs:429-436), which ends `run_in_terminal` itself. -/
inductive LoopRes where
  | awaiting
  | finished
  | errored (e : Err)
  | panicked
  | blocked
  | outOfFuel
deriving DecidableEq, Repr

/-- `run_in_terminal` (lib.rs:409-440) on a list of already-read input lines:
start with `offset + 1` zero cells and the cursor at `offset`; for each line, stop
with `Ok(())` on "quit", otherwise sanitize unless verbose and call `eval`,
threading tape, cursor and the keystroke stream through successive evaluations.
The `?` on the `eval` call propagates any evaluation error, ending the loop. -/
def run_in_terminal (debug verbose : Bool) (memSize : Nat) (fuel : Nat) :
    List (List Char) → List Nat → Nat → List Nat → LoopRes
  | [], _, _, _ => .awaiting
  | line :: rest, mem, cellptr, input =>
    if line = quitLine then .finished
    else
      match eval (if verbose then line else sanitize line) mem cellptr debug memSize input fuel with
      | .ok st => run_in_terminal debug verbose memSize fuel rest st.mem st.cellptr st.input
      | .err e _ => .errored e
      | .panicked => .panicked
      | .blocked _ => .blocked
      | .outOfFuel _ => .outOfFuel

/-- Substring test for a two-character pattern (`String::contains`). -/
def contains2 (a b : Char) : List Char → Bool
  | x :: y :: rest => (x = a && y = b) || contains2 a b (y :: rest)
  | _ => false

/-- Substring test for a three-character pattern (`String::contains`). -/
def contains3 (a b c : Char) : List Char → Bool
  | x :: y :: z :: rest => (x = a && y = b && z = c) || contains3 a b c (y :: z :: rest)
  | _ => false

/-- `String::replace` for a two-character pattern: replace every non-overlapping
occurrence, scanning left to right and resuming after each match. -/
def replace2 (a b : Char) (rep : List Char) : List Char → List Char
  | x :: y :: rest =>
    if x = a ∧ y = b then rep ++ replace2 a b rep rest
    else x :: replace2 a b rep (y :: rest)
  | l => l

/-- `String::replace` for a three-character pattern. -/
def replace3 (a b c : Char) (rep : List Char) : List Char → List Char
  | x :: y :: z :: rest =>
    if x = a ∧ y = b ∧ z = c then rep ++ replace3 a b c rep rest
    else x :: replace3 a b c rep (y :: z :: rest)
  | l => l

/-- The `while` condition of phase 1 (lib.rs:540-546): some cancelling pair or
clear-cell idiom occurs in the code. -/
def hasPattern (code : List Char) : Bool :=
  contains2 '>' '<' code || contains2 '<' '>' code || contains2 '+' '-' code ||
    contains2 '-' '+' code || contains3 '[' '-' ']' code || contains3 '[' '+' ']' code

/-- The body of the phase-1 loop (lib.rs:547-552): the six `String::replace` calls
in source order -- delete adjacent inverse pairs, rewrite the two clear idioms to `c`. -/
def phase1Step (code : List Char) : List Char :=
  replace3 '[' '+' ']' ['c']
    (replace3 '[' '-' ']' ['c']
      (replace2 '-' '+' []
        (replace2 '+' '-' []
          (replace2 '<' '>' []
            (replace2 '>' '<' [] code)))))

/-- Phase 1 with an explicit iteration budget.  Each firing iteration shortens the
code by at least two characters, so `code.length` iterations always reach the fixed
point (`phase1_no_pattern` below certifies this). -/
def phase1Fuel : Nat → List Char → List Char
  | 0, code => code
  | fuel + 1, code => if hasPattern code then phase1Fuel fuel (phase1Step code) else code

/-- Phase 1 of `gen_optimized` (lib.rs:540-553): rewrite until no pattern remains. -/
def phase1 (code : List Char) : List Char := phase1Fuel code.length code

/-- An emitted C statement of the code generator, one constructor per `format!`
template of lib.rs:556-607:
`ptrAdd k` = `ptr += k;`; `cellAdd k` = `*ptr += k;`; `cellSet k` = `*ptr = k;`;
`readAssign n k` = `getch();` repeated `n - 1` times then `*ptr = getch() + k;`;
`putchar` = `putchar(*ptr);`; `whileOpen` / `whileClose` = the `while (*ptr) {` /
`}` pair; `debugFlag` / `debugWindow` = the two debug printouts (stdout only). -/
inductive Stmt where
  | ptrAdd (k : Int)
  | cellAdd (k : Int)
  | cellSet (k : Int)
  | readAssign (n : Nat) (k : Int)
  | putchar
  | whileOpen
  | whileClose
  | debugFlag
  | debugWindow
deriving DecidableEq, Repr

/-- The lookahead loop coalescing a run of moves (lib.rs:558-566): add `+1` per
`>` and `-1` per `<` until the next character is neither. -/
def takeMoves : List Char → Int → Int × List Char
  | [], k => (k, [])
  | x :: rest, k =>
    if x = '>' then takeMoves rest (k + 1)
    else if x = '<' then takeMoves rest (k - 1)
    else (k, x :: rest)

/-- The lookahead loop coalescing a run of `+`, `-`, `,`, `c` (lib.rs:571-589):
`+`/`-` adjust the running delta; `c` sets the clear flag and resets the delta
(`counter += -counter`); `,` bumps the read count and resets the delta.
Returns (final delta, read count, clear flag, remaining characters). -/
def takeArith : List Char → Int → Nat → Bool → Int × Nat × Bool × List Char
  | [], k, g, c => (k, g, c, [])
  | x :: rest, k, g, c =>
    if x = '+' then takeArith rest (k + 1) g c
    else if x = '-' then takeArith rest (k - 1) g c
    else if x = 'c' then takeArith rest 0 g true
    else if x = ',' then takeArith rest 0 (g + 1) c
    else (k, g, c, x :: rest)

/-- Phase 2 of `gen_optimized` (lib.rs:554-608) with an explicit budget: walk the
rewritten code, coalesce move runs and arithmetic runs, and emit one statement per
token.  The emission priority mirrors lib.rs:590-595: a run containing any read
emits `readAssign`, else a run containing a clear emits `cellSet`, else a nonzero
delta emits `cellAdd`, else nothing.  Any character outside the known alphabet
aborts with the invalid-character error (lib.rs:606).  Every iteration consumes at
least one character, so a budget of `s.length` suffices (`phase2Fuel_congr`). -/
def phase2Fuel (debug : Bool) : Nat → List Char → Except Err (List Stmt)
  | 0, _ => .ok []
  | fuel + 1, [] => .ok []
  | fuel + 1, op :: rest =>
    if op = '>' ∨ op = '<' then
      let r := takeMoves rest (if op = '>' then 1 else -1)
      match phase2Fuel debug fuel r.2 with
      | .error e => .error e
      | .ok stmts => .ok (if r.1 = 0 then stmts else .ptrAdd r.1 :: stmts)
    else if op = '+' ∨ op = '-' ∨ op = ',' ∨ op = 'c' then
      let r := takeArith rest (if op = '+' then 1 else if op = '-' then -1 else 0)
        (if op = ',' then 1 else 0) (op = 'c')
      match phase2Fuel debug fuel r.2.2.2 with
      | .error e => .error e
      | .ok stmts =>
        .ok (if 0 < r.2.1 then .readAssign r.2.1 r.1 :: stmts
          else if r.2.2.1 then .cellSet r.1 :: stmts
          else if r.1 = 0 then stmts
          else .cellAdd r.1 :: stmts)
    else if op = '.' then
      match phase2Fuel debug fuel rest with
      | .error e => .error e
      | .ok stmts => .ok (.putchar :: stmts)
    else if op = '[' then
      match phase2Fuel debug fuel rest with
      | .error e => .error e
      | .ok stmts => .ok (.whileOpen :: stmts)
    else if op = ']' then
      match phase2Fuel debug fuel rest with
      | .error e => .error e
      | .ok stmts => .ok (.whileClose :: stmts)
    else if op = '#' ∧ debug then
      match phase2Fuel debug fuel rest with
      | .error e => .error e
      | .ok stmts => .ok (.debugFlag :: stmts)
    else if op = '|' ∧ debug then
      match phase2Fuel debug fuel rest with
      | .error e => .error e
      | .ok stmts => .ok (.debugWindow :: stmts)
    else .error (.invalidChar op)

/-- Phase 2 of `gen_optimized` at its sufficient budget. -/
def phase2 (debug : Bool) (s : List Char) : Except Err (List Stmt) :=
  phase2Fuel debug s.length s

/-- `gen_optimized` (lib.rs:538-610): phase-1 rewriting to a fixed point, then
phase-2 coalescing and statement emission.  `memLen` is used by the Rust code only
inside the text of the window-dump printf and has no modelled effect. -/
def gen_optimized (code : List Char) (debug : Bool) (memLen : Nat) : Except Err (List Stmt) :=
  phase2 debug (phase1 code)

/-- State of the generated C program: the `unsigned char mem[memSize]` array
(modelled zero-initialized; the C source leaves it uninitialized), the cell pointer
as an offset into it, the pending keystrokes, the bytes written by `putchar`, and
the debug counter. -/
structure CState where
  mem : List Nat
  ptr : Int
  input : List Nat
  output : List Nat
  debugCount : Nat
deriving DecidableEq, Repr

/-- Outcome of running the generated statements: normal `return 0`, an access
outside the array (undefined behaviour in C -- the model stops), a read with no
keystroke available, a structurally ill-formed program (unmatched while braces --
such text would not compile), or budget exhaustion. -/
inductive CRes where
  | ok (st : CState)
  | ub (st : CState)
  | blocked (st : CState)
  | illFormed
  | outOfFuel (st : CState)
deriving DecidableEq, Repr

/-- Bracket-matching over the emitted statements, pairing each `whileOpen` with its
`whileClose`; this resolves the brace structure the C compiler would parse. -/
def scanStmts : List Stmt → Nat → List Nat → List (Nat × Nat) → Option (List Nat × List (Nat × Nat))
  | [], _, st, bm => some (st, bm)
  | s :: ss, pos, st, bm =>
    match s with
    | .whileOpen => scanStmts ss (pos + 1) (pos :: st) bm
    | .whileClose =>
      match st with
      | [] => none
      | start :: st' => scanStmts ss (pos + 1) st' ((start, pos) :: (pos, start) :: bm)
    | _ => scanStmts ss (pos + 1) st bm

/-- The array index the cell pointer currently denotes, if it is inside the array. -/
def cellIdx (st : CState) : Option Nat :=
  if 0 ≤ st.ptr ∧ st.ptr < (st.mem.length : Int) then some st.ptr.toNat else none

/-- Execute the emitted statements.  `unsigned char` arithmetic reduces modulo 256;
`while (*ptr)` tests the current cell against zero, with the jump table standing in
for the brace structure; `readAssign n k` performs `n - 1` discarded `getch()`
calls and stores the last keystroke plus `k`; the debug statements print only to
stdout (`debugFlag` also increments the counter). -/
def execC (prog : List Stmt) (bm : List (Nat × Nat)) : Nat → Nat → CState → CRes
  | 0, _, st => .outOfFuel st
  | fuel + 1, pc, st =>
    if pc < prog.length then
      match prog.getD pc .putchar with
      | .ptrAdd k => execC prog bm fuel (pc + 1) { st with ptr := st.ptr + k }
      | .cellAdd k =>
        match cellIdx st with
        | none => .ub st
        | some i =>
          execC prog bm fuel (pc + 1)
            { st with mem := st.mem.set i ((((st.mem.getD i 0 : Int) + k).emod 256).toNat) }
      | .cellSet k =>
        match cellIdx st with
        | none => .ub st
        | some i => execC prog bm fuel (pc + 1) { st with mem := st.mem.set i ((k.emod 256).toNat) }
      | .readAssign n k =>
        match cellIdx st with
        | none => .ub st
        | some i =>
          if n = 0 then .illFormed
          else if st.input.length < n then .blocked st
          else
            execC prog bm fuel (pc + 1)
              { st with
                mem := st.mem.set i ((((st.input.getD (n - 1) 0 : Int) + k).emod 256).toNat),
                input := st.input.drop n }
      | .putchar =>
        match cellIdx st with
        | none => .ub st
        | some i => execC prog bm fuel (pc + 1) { st with output := st.output ++ [st.mem.getD i 0] }
      | .whileOpen =>
        match cellIdx st with
        | none => .ub st
        | some i =>
          if st.mem.getD i 0 = 0 then
            match lookupNat bm pc with
            | none => .illFormed
            | some j => execC prog bm fuel (j + 1) st
          else execC prog bm fuel (pc + 1) st
      | .whileClose =>
        match cellIdx st with
        | none => .ub st
        | some i =>
          if st.mem.getD i 0 ≠ 0 then
            match lookupNat bm pc with
            | none => .illFormed
            | some j => execC prog bm fuel (j + 1) st
          else execC prog bm fuel (pc + 1) st
      | .debugFlag => execC prog bm fuel (pc + 1) { st with debugCount := st.debugCount + 1 }
      | .debugWindow => execC prog bm fuel (pc + 1) st
    else .ok st

/-- Run the generated program as `translate` wraps it (lib.rs:303-336): a byte
array of `memSize` cells with the pointer starting at `offset`, then the statement
list. -/
def runC (prog : List Stmt) (memSize offset : Nat) (input : List Nat) (fuel : Nat) : CRes :=
  match scanStmts prog 0 [] [] with
  | none => .illFormed
  | some (_, bm) => execC prog bm fuel 0 ⟨List.replicate memSize 0, (offset : Int), input, [], 0⟩

/-- The output stream of a completed interpreter run. -/
def iOutput : RunResult → Option (List Nat)
  | .ok st => some st.output
  | _ => none

/-- A cell of the final tape of a completed interpreter run. -/
def iCellAt : RunResult → Nat → Option Nat
  | .ok st, i => some (st.mem.getD i 0)
  | _, _ => none

/-- The output stream of a completed run of the generated program. -/
def cOutput : CRes → Option (List Nat)
  | .ok st => some st.output
  | _ => none

/-- A cell of the final array of a completed run of the generated program. -/
def cCellAt : CRes → Nat → Option Nat
  | .ok st, i => some (st.mem.getD i 0)
  | _, _ => none

set_option maxRecDepth 8000

theorem getD_set_self (l : List Nat) (n a : Nat) (h : n < l.length) :
    (l.set n a).getD n 0 = a := by
  induction l generalizing n with
  | nil => simp at h
  | cons x xs ih =>
    cases n with
    | zero => simp
    | succ m => simpa using ih m (by simpa using h)

theorem opens_append (a b : List Char) : opens (a ++ b) = opens a + opens b := by
  simp [opens, List.countP_append]

theorem closes_append (a b : List Char) : closes (a ++ b) = closes a + closes b := by
  simp [closes, List.countP_append]

theorem opens_nil : opens [] = 0 := rfl

theorem closes_nil : closes [] = 0 := rfl

theorem opens_cons (c : Char) (l : List Char) :
    opens (c :: l) = (if c = '[' then 1 else 0) + opens l := by
  by_cases hc : c = '[' <;> simp [opens, List.countP_cons, hc, Nat.add_comm]

theorem closes_cons (c : Char) (l : List Char) :
    closes (c :: l) = (if c = ']' then 1 else 0) + closes l := by
  by_cases hc : c = ']' <;> simp [closes, List.countP_cons, hc, Nat.add_comm]

/-- C10: there is a stream on which direct interpretation fails with a bounds
error while the optimizer cancels the offending inverse move pair: `"<>"` at
cursor 0 fails in the interpreter with no output, but optimizes to the empty
statement sequence, which executes successfully. -/
theorem c10_cancellation_masks_bounds_error :
    interpret ['<', '>'] false false 30000 0 [] 10 =
      .err .outOfBound ⟨[0], 0, 0, [], [], 0⟩ ∧
    gen_optimized ['<', '>'] false 30000 = .ok [] ∧
    runC [] 30000 0 [] 5 = .ok ⟨List.replicate 30000 0, 0, [], [], 0⟩ :=
  ⟨rfl, rfl, rfl⟩

/-- C7: the optimizer rewrites `"[-]"` and `"[+]"` to the single clear-cell token
`cellSet 0`, whose generated statement assigns zero directly: run on a zero cell
it terminates at once with no output and the cell still zero (no infinite loop). -/
theorem c7_clear_idiom :
    gen_optimized ['[', '-', ']'] false 30000 = .ok [.cellSet 0] ∧
    gen_optimized ['[', '+', ']'] false 30000 = .ok [.cellSet 0] ∧
    cOutput (runC [.cellSet 0] 100 0 [] 5) = some [] ∧
    cCellAt (runC [.cellSet 0] 100 0 [] 5) 0 = some 0 :=
  ⟨rfl, rfl, rfl, rfl⟩

/-- C6 (code bug): in the run `",c"` -- produced by phase 1 from `",[-]"` -- the
clear-cell occurs last, so by the claim the emitted token should assign the
constant 0; the code instead gives reads priority and emits
`readAssign 1 0` (`*ptr = getch() + 0;`), which keeps the read byte (here 5) as
the final cell value instead of 0. -/
theorem c6_read_clear_priority :
    phase1 [',', '[', '-', ']'] = [',', 'c'] ∧
    phase2 false [',', 'c'] = .ok [.readAssign 1 0] ∧
    Stmt.readAssign 1 0 ≠ .cellSet 0 ∧
    cCellAt (runC [.readAssign 1 0] 100 0 [5] 5) 0 = some 5 ∧
    cCellAt (runC [.cellSet 0] 100 0 [5] 5) 0 = some 0 :=
  ⟨rfl, rfl, by decide, rfl, rfl⟩

/-- C1 (code bug): the balanced stream `",[-]."` with input byte 1 (which never
moves the cursor, so no tape-capacity issue arises) makes the interpreter output
byte 0 -- read 1, clear the cell in the loop, print -- while `gen_optimized`
emits `*ptr = getch() + 0; putchar(*ptr);`, whose execution outputs the read
byte 1: optimized generation does not preserve the interpreter's output. -/
theorem c1_optimizer_changes_output :
    get_code [',', '[', '-', ']', '.'] = .ok [',', '[', '-', ']', '.'] ∧
    iOutput (interpret [',', '[', '-', ']', '.'] false false 30000 0 [1] 20) = some [0] ∧
    gen_optimized [',', '[', '-', ']', '.'] false 30000 = .ok [.readAssign 1 0, .putchar] ∧
    cOutput (runC [.readAssign 1 0, .putchar] 100 0 [1] 10) = some [1] ∧
    ([0] : List Nat) ≠ [1] :=
  ⟨rfl, rfl, rfl, rfl, by decide⟩

/-- C2: increment and decrement performed by the tape machine wrap the cell
modulo 256 and never abort execution (the step always continues), and 256
consecutive increments applied to the zero cell of a fresh tape leave it at
zero. -/
theorem c2_increment_wraps :
    (∀ contents bm debug memSize st v,
        st.codeptr < contents.length →
        contents.getD st.codeptr ' ' = '+' →
        st.cellptr < st.mem.length →
        st.mem.getD st.cellptr 0 = v →
        ∃ st', interpStep contents bm debug memSize st = .cont st' ∧
          st'.mem.getD st.cellptr 0 = (v + 1) % 256) ∧
    (∀ contents bm debug memSize st v,
        st.codeptr < contents.length →
        contents.getD st.codeptr ' ' = '-' →
        st.cellptr < st.mem.length →
        st.mem.getD st.cellptr 0 = v →
        ∃ st', interpStep contents bm debug memSize st = .cont st' ∧
          st'.mem.getD st.cellptr 0 = (v + 255) % 256) ∧
    iCellAt (interpret (List.replicate 256 '+') false false 30000 0 [] 300) 0 = some 0 := by
  refine ⟨?_, ?_, by decide⟩
  · intro contents bm debug memSize st v h1 hc hlt hv
    rw [List.getD_eq_getElem contents ' ' h1] at hc
    refine ⟨{ st with
        mem := st.mem.set st.cellptr ((st.mem.getD st.cellptr 0 + 1) % 256),
        codeptr := st.codeptr + 1 }, ?_, ?_⟩
    · simp [interpStep, h1, hc]
    · rw [hv]; simpa using getD_set_self st.mem st.cellptr ((v + 1) % 256) hlt
  · intro contents bm debug memSize st v h1 hc hlt hv
    rw [List.getD_eq_getElem contents ' ' h1] at hc
    refine ⟨{ st with
        mem := st.mem.set st.cellptr ((st.mem.getD st.cellptr 0 + 255) % 256),
        codeptr := st.codeptr + 1 }, ?_, ?_⟩
    · simp [interpStep, h1, hc]
    · rw [hv]; simpa using getD_set_self st.mem st.cellptr ((v + 255) % 256) hlt

/-- C2 witness: the general parts of `c2_increment_wraps` applied to the
single-instruction stream `"+"` on a tape whose cell holds 255 (so the wrap to 0
is exercised). -/
theorem c2_increment_wraps_witness :
    (0 < ([('+' : Char)] : List Char).length ∧
      ([('+' : Char)] : List Char).getD 0 ' ' = '+' ∧
      (0 : Nat) < ([255] : List Nat).length ∧
      ([255] : List Nat).getD 0 0 = 255) ∧
    ∃ st', interpStep ['+'] [] false 30000 ⟨[255], 0, 0, [], [], 0⟩ = .cont st' ∧
      st'.mem.getD 0 0 = (255 + 1) % 256 :=
  ⟨⟨by decide, by decide, by decide, by decide⟩,
    c2_increment_wraps.1 ['+'] [] false 30000 ⟨[255], 0, 0, [], [], 0⟩ 255
      (by decide) (by decide) (by decide) (by decide)⟩

/-- C3 (counterexample): with the session lines `"<"` then `"quit"`, the failed
evaluation of `"<"` does not lead to a new prompt -- the loop never reaches the
`"quit"` line and ends with the propagated bounds error rather than the normal
quit outcome the claim would predict. -/
theorem c3_counterexample :
    run_in_terminal false false 30000 10 [['<'], quitLine] [0] 0 [] =
      .errored .outOfBound ∧
    (LoopRes.errored .outOfBound ≠ .finished) :=
  ⟨rfl, by decide⟩

/-- C3 (amended): a failed evaluation is not recovered: the `?` on the `eval`
call propagates the error, ending the interactive loop (the caller reports it
and exits), so the lines after the failing one are never evaluated; the tape and
cursor are threaded into the next evaluation only when an evaluation succeeds. -/
theorem c3_error_ends_loop :
    (∀ debug verbose memSize fuel line rest mem cellptr input e st',
        line ≠ quitLine →
        eval (if verbose then line else sanitize line) mem cellptr debug memSize input fuel =
          .err e st' →
        run_in_terminal debug verbose memSize fuel (line :: rest) mem cellptr input =
          .errored e) ∧
    (∀ debug verbose memSize fuel line rest mem cellptr input st',
        line ≠ quitLine →
        eval (if verbose then line else sanitize line) mem cellptr debug memSize input fuel =
          .ok st' →
        run_in_terminal debug verbose memSize fuel (line :: rest) mem cellptr input =
          run_in_terminal debug verbose memSize fuel rest st'.mem st'.cellptr st'.input) := by
  constructor
  · intro debug verbose memSize fuel line rest mem cellptr input e st' hq he
    simp [run_in_terminal, hq, he]
  · intro debug verbose memSize fuel line rest mem cellptr input st' hq he
    simp [run_in_terminal, hq, he]

/-- C3 witness: `c3_error_ends_loop` applied to the failing line `"<"` followed
by the line `"quit"`, on the initial session tape. -/
theorem c3_error_ends_loop_witness :
    ((['<'] : List Char) ≠ quitLine ∧
      eval (sanitize ['<']) [0] 0 false 30000 [] 10 =
        .err .outOfBound ⟨[0], 0, 0, [], [], 0⟩) ∧
    run_in_terminal false false 30000 10 [['<'], quitLine] [0] 0 [] =
      .errored .outOfBound :=
  ⟨⟨by decide, rfl⟩,
    c3_error_ends_loop.1 false false 30000 10 ['<'] [quitLine] [0] 0 [] .outOfBound
      ⟨[0], 0, 0, [], [], 0⟩ (by decide) rfl⟩

/-- C4 (counterexample): the stream `"]["` has equal bracket counts, so the prior
balance check of `get_code` accepts it, yet the bracket-matching scan pops an
empty stack at position 0 (the `temp.pop().unwrap()` panic): the balance check
does not make the pop safe. -/
theorem c4_counterexample :
    get_code [']', '['] = .ok [']', '['] ∧
    scanAux [']', '['] 0 [] [] = none :=
  ⟨rfl, rfl⟩

/-- C9: at a move-left with the cursor at 0, and at a move-right that would take
the cursor past the configured maximum index, the run returns the bounds error
immediately: the returned state is the state before the instruction (so its
output is exactly the output produced so far) and the rest of the stream is
never executed. -/
theorem c9_bounds_errors :
    (∀ contents bm debug memSize fuel st,
        st.codeptr < contents.length →
        contents.getD st.codeptr ' ' = '<' →
        st.cellptr = 0 →
        interpRun contents bm debug memSize (fuel + 1) st = .err .outOfBound st) ∧
    (∀ contents bm debug memSize fuel st,
        st.codeptr < contents.length →
        contents.getD st.codeptr ' ' = '>' →
        memSize ≤ st.cellptr →
        interpRun contents bm debug memSize (fuel + 1) st = .err .outOfBound st) := by
  constructor
  · intro contents bm debug memSize fuel st h1 hc h0
    rw [List.getD_eq_getElem contents ' ' h1] at hc
    simp [interpRun, interpStep, h1, hc, h0]
  · intro contents bm debug memSize fuel st h1 hc h0
    rw [List.getD_eq_getElem contents ' ' h1] at hc
    simp [interpRun, interpStep, h1, hc, Nat.lt_succ_of_le h0]

/-- C9 witness: `c9_bounds_errors` applied to the streams `"<."` and `">."` in a
fresh default configuration state (cursor 0, tape size 0 for the move-right
part), showing the error with no further output in both directions. -/
theorem c9_bounds_errors_witness :
    ((0 : Nat) < (['<', '.'] : List Char).length ∧
      (['<', '.'] : List Char).getD 0 ' ' = '<' ∧
      interpRun ['<', '.'] [] false 30000 5 ⟨[0], 0, 0, [], [], 0⟩ =
        .err .outOfBound ⟨[0], 0, 0, [], [], 0⟩) ∧
    ((0 : Nat) < (['>', '.'] : List Char).length ∧
      (['>', '.'] : List Char).getD 0 ' ' = '>' ∧
      interpRun ['>', '.'] [] false 0 5 ⟨[0], 0, 0, [], [], 0⟩ =
        .err .outOfBound ⟨[0], 0, 0, [], [], 0⟩) :=
  ⟨⟨by decide, by decide,
      c9_bounds_errors.1 ['<', '.'] [] false 30000 4 ⟨[0], 0, 0, [], [], 0⟩
        (by decide) (by decide) rfl⟩,
    ⟨by decide, by decide,
      c9_bounds_errors.2 ['>', '.'] [] false 0 4 ⟨[0], 0, 0, [], [], 0⟩
        (by decide) (by decide) (by decide)⟩⟩

theorem scan_no_pop :
    ∀ (w : List Char) (pos : Nat) (st : List Nat) (bm : List (Nat × Nat)),
      (∀ n, n ≤ w.length → closes (w.take n) ≤ opens (w.take n) + st.length) →
      ∃ r, scanAux w pos st bm = some r := by
  intro w
  induction w with
  | nil => intro pos st bm _; exact ⟨(st, bm), rfl⟩
  | cons c cs ih =>
    intro pos st bm h
    by_cases hc : c = '['
    · subst hc
      simp only [scanAux, if_pos rfl]
      apply ih
      intro n hn
      have hh := h (n + 1) (by simpa using hn)
      simp only [List.take_succ_cons, closes, opens, List.countP_cons, List.length_cons] at hh ⊢
      simp at hh
      omega
    · by_cases hc2 : c = ']'
      · subst hc2
        cases st with
        | nil =>
          exfalso
          have hh := h 1 (by simp)
          simp [closes, opens, List.countP_cons] at hh
        | cons p st' =>
          simp only [scanAux, if_neg hc, if_pos rfl]
          apply ih
          intro n hn
          have hh := h (n + 1) (by simpa using hn)
          simp only [List.take_succ_cons, closes, opens, List.countP_cons, List.length_cons] at hh ⊢
          simp at hh
          omega
      · simp only [scanAux, if_neg hc, if_neg hc2]
        apply ih
        intro n hn
        have hh := h (n + 1) (by simpa using hn)
        simp only [List.take_succ_cons, closes, opens, List.countP_cons, List.length_cons] at hh ⊢
        simp [hc, hc2] at hh
        omega

theorem scan_some_prefix_bound :
    ∀ (w : List Char) (pos : Nat) (st : List Nat) (bm : List (Nat × Nat))
      (r : List Nat × List (Nat × Nat)),
      scanAux w pos st bm = some r →
      ∀ n, n ≤ w.length → closes (w.take n) ≤ opens (w.take n) + st.length := by
  intro w
  induction w with
  | nil =>
    intro pos st bm r _ n _
    simp [opens, closes]
  | cons c cs ih =>
    intro pos st bm r hscan n hn
    cases n with
    | zero => simp [opens, closes]
    | succ m =>
      simp only [List.length_cons] at hn
      rw [List.take_succ_cons]
      by_cases hc : c = '['
      · subst hc
        simp only [scanAux, if_pos rfl] at hscan
        have hrec := ih (pos + 1) (pos :: st) bm r hscan m (by omega)
        simp only [List.length_cons] at hrec
        simp only [opens_cons, closes_cons]
        simp
        omega
      · by_cases hc2 : c = ']'
        · subst hc2
          cases st with
          | nil => simp [scanAux, hc] at hscan
          | cons p st' =>
            simp only [scanAux, if_neg hc, if_pos rfl] at hscan
            have hrec := ih (pos + 1) st' _ r hscan m (by omega)
            simp only [opens_cons, closes_cons, List.length_cons]
            simp
            omega
        · simp only [scanAux, if_neg hc, if_neg hc2] at hscan
          have hrec := ih (pos + 1) st bm r hscan m (by omega)
          simp only [opens_cons, closes_cons]
          simp [hc, hc2]
          omega

/-- C4 (amended): the count-only balance check does not make the pop in the
bracket scan safe (see the `"]["` counterexample); the exact characterization
is the prefix condition: the scan completes without the `.unwrap()` panic if
and only if no prefix of the stream closes more loops than it opens (which
holds in particular for every properly nested stream). -/
theorem c4_scan_safe_iff_prefix_safe :
    ∀ w : List Char, (∃ r, scanAux w 0 [] [] = some r) ↔ PrefixSafe w := by
  intro w
  constructor
  · rintro ⟨r, hr⟩
    intro n hn
    simpa using scan_some_prefix_bound w 0 [] [] r hr n hn
  · intro hw
    apply scan_no_pop
    intro n hn
    simpa using hw n hn

/-- C4 witness: the backward direction of `c4_scan_safe_iff_prefix_safe`
applied to the properly nested stream `"[]"`. -/
theorem c4_scan_safe_witness :
    PrefixSafe ['[', ']'] ∧ ∃ r, scanAux ['[', ']'] 0 [] [] = some r :=
  ⟨by decide, (c4_scan_safe_iff_prefix_safe ['[', ']']).mpr (by decide)⟩

/-- C8 (counterexample): sanitization keeps the debug symbol `#`, and in a
sanitized (non-verbose) run with debug mode off the machine still reaches the
any-other-symbol case on it, failing with the invalid-character error. -/
theorem c8_counterexample :
    sanitize ['#'] = ['#'] ∧
    interpret ['#'] false false 30000 0 [] 10 =
      .err (.invalidChar '#') ⟨[0], 0, 0, [], [], 0⟩ :=
  ⟨rfl, rfl⟩

theorem interpStep_no_invalidChar (contents : List Char) (bm : List (Nat × Nat))
    (memSize : Nat) (st : IState)
    (h : ∀ ch ∈ contents, ch ∈ bfAlphabet) :
    ∀ c st', interpStep contents bm true memSize st ≠ .fail (.invalidChar c) st' := by
  intro c st'
  unfold interpStep
  by_cases h1 : st.codeptr < contents.length
  · rw [if_pos h1]
    have hmem : contents.getD st.codeptr ' ' ∈ bfAlphabet := by
      rw [List.getD_eq_getElem contents ' ' h1]
      exact h _ (List.getElem_mem h1)
    simp only [bfAlphabet, List.mem_cons, List.not_mem_nil, or_false] at hmem
    rcases hmem with hx | hx | hx | hx | hx | hx | hx | hx | hx | hx
    · simp only [hx]; simp; split <;> simp
    · simp only [hx]; simp; split <;> simp
    · simp only [hx]; simp; split
      · cases lookupNat bm st.codeptr <;> simp
      · simp
    · simp only [hx]; simp; split
      · simp
      · cases lookupNat bm st.codeptr <;> simp
    · simp only [hx]; simp
    · simp only [hx]; simp
    · simp only [hx]; simp
    · simp only [hx]; simp; cases st.input <;> simp
    · simp only [hx]; simp
    · simp only [hx]; simp
  · simp [if_neg h1]

theorem interpRun_no_invalidChar (contents : List Char) (bm : List (Nat × Nat))
    (memSize : Nat) (h : ∀ ch ∈ contents, ch ∈ bfAlphabet) :
    ∀ (fuel : Nat) (st : IState) (c : Char) (st' : IState),
      interpRun contents bm true memSize fuel st ≠ .err (.invalidChar c) st' := by
  intro fuel
  induction fuel with
  | zero => intro st c st'; simp [interpRun]
  | succ n ih =>
    intro st c st'
    unfold interpRun
    cases hstep : interpStep contents bm true memSize st with
    | cont st2 => simpa using ih st2 c st'
    | halt st2 => simp
    | fail e st2 =>
      show RunResult.err e st2 ≠ RunResult.err (.invalidChar c) st'
      intro heq
      injection heq with he hst
      exact interpStep_no_invalidChar contents bm memSize st h c st2 (he ▸ hstep)
    | panicked => simp
    | blocked st2 => simp

/-- C8 (amended): sanitization keeps the two debug symbols, so in a sanitized
non-verbose run with debug mode off they still reach the any-other-symbol case
(see the counterexample); with debug mode on, a run over sanitized characters
never produces the invalid-character failure; and whenever a character outside
the instruction alphabet reaches the machine (possible only when verbose mode
bypassed sanitization), the step fails with the error naming exactly that
character. -/
theorem c8_invalid_char_reachability :
    (∀ (contents : List Char) (bm : List (Nat × Nat)) (memSize fuel : Nat)
        (st : IState) (c : Char) (st' : IState),
        (∀ ch ∈ contents, ch ∈ bfAlphabet) →
        interpRun contents bm true memSize fuel st ≠ .err (.invalidChar c) st') ∧
    (∀ (contents : List Char) (bm : List (Nat × Nat)) (debug : Bool) (memSize : Nat)
        (st : IState),
        st.codeptr < contents.length →
        contents.getD st.codeptr ' ' ∉ bfAlphabet →
        interpStep contents bm debug memSize st =
          .fail (.invalidChar (contents.getD st.codeptr ' ')) st) := by
  constructor
  · intro contents bm memSize fuel st c st' h
    exact interpRun_no_invalidChar contents bm memSize h fuel st c st'
  · intro contents bm debug memSize st h1 h2
    unfold interpStep
    rw [if_pos h1]
    set x := contents.getD st.codeptr ' ' with hxdef
    simp only [bfAlphabet, List.mem_cons, List.not_mem_nil, or_false, not_or] at h2
    obtain ⟨n1, n2, n3, n4, n5, n6, n7, n8, n9, n10⟩ := h2
    simp [n1, n2, n3, n4, n5, n6, n7, n8, n9, n10]

/-- C8 witness: the first part of `c8_invalid_char_reachability` at the
sanitized one-instruction stream `"+"` with debug on, and the second part at the
stream `"x"` (a character verbose mode would let through). -/
theorem c8_invalid_char_reachability_witness :
    ((∀ ch ∈ (['+'] : List Char), ch ∈ bfAlphabet) ∧
      interpRun ['+'] [] true 30000 5 ⟨[0], 0, 0, [], [], 0⟩ ≠
        .err (.invalidChar 'x') ⟨[0], 0, 0, [], [], 0⟩) ∧
    ((0 : Nat) < (['x'] : List Char).length ∧
      (['x'] : List Char).getD 0 ' ' ∉ bfAlphabet ∧
      interpStep ['x'] [] false 30000 ⟨[0], 0, 0, [], [], 0⟩ =
        .fail (.invalidChar ((['x'] : List Char).getD 0 ' ')) ⟨[0], 0, 0, [], [], 0⟩) :=
  ⟨⟨by decide,
      c8_invalid_char_reachability.1 ['+'] [] 30000 5 ⟨[0], 0, 0, [], [], 0⟩ 'x'
        ⟨[0], 0, 0, [], [], 0⟩ (by decide)⟩,
    ⟨by decide, by decide,
      c8_invalid_char_reachability.2 ['x'] [] false 30000 ⟨[0], 0, 0, [], [], 0⟩
        (by decide) (by decide)⟩⟩

theorem seg_cons_succ (c : Char) (w : List Char) (a b : Nat) :
    seg (c :: w) (a + 1) (b + 1) = seg w a b := by
  simp [seg, List.take_succ_cons]

theorem seg_append_left (w v : List Char) (a b : Nat) (h : b ≤ w.length) :
    seg (w ++ v) a b = seg w a b := by
  simp [seg, List.take_append_of_le_length h]

theorem seg_append_right (u w : List Char) (a b : Nat) :
    seg (u ++ w) (u.length + a) (u.length + b) = seg w a b := by
  simp only [seg, List.take_append, List.drop_append]

theorem dyck_nested {w : List Char} (hd : Dyck w) : Nested w := by
  induction hd with
  | nil => exact ⟨fun n _ => by simp [opens, closes], rfl⟩
  | plain hc1 hc2 hw ih =>
    constructor
    · intro n hn
      cases n with
      | zero => simp [opens, closes]
      | succ m =>
        have hm := ih.1 m (by simpa using hn)
        simpa [List.take_succ_cons, opens_cons, closes_cons, hc1, hc2] using hm
    · simpa [opens_cons, closes_cons, hc1, hc2] using ih.2
  | brak hw hv ihw ihv =>
    rename_i w v
    constructor
    · intro n hn
      by_cases hm : n ≤ w.length + 1
      · rw [List.take_append_of_le_length (by simp; omega)]
        cases n with
        | zero => simp [opens, closes]
        | succ m =>
          rw [List.take_succ_cons]
          have := ihw.1 m (by omega)
          simp [opens_cons, closes_cons]
          omega
      · push_neg at hm
        have h1 : n = ('[' :: w).length + (n - w.length - 1) := by simp; omega
        rw [h1, List.take_append]
        obtain ⟨k, hk⟩ : ∃ k, n - w.length - 1 = k + 1 := ⟨n - w.length - 2, by omega⟩
        rw [hk, List.take_succ_cons]
        have hkv : k ≤ v.length := by
          simp only [List.length_append, List.length_cons] at hn
          omega
        have := ihv.1 k hkv
        have htotw := ihw.2
        simp [opens_cons, closes_cons, opens_append, closes_append]
        omega
    · have htotw := ihw.2
      have htotv := ihv.2
      simp [opens_cons, closes_cons, opens_append, closes_append]
      omega

theorem nested_dyck_aux : ∀ (fuel : Nat) (w : List Char), w.length ≤ fuel → Nested w → Dyck w := by
  intro fuel
  induction fuel with
  | zero =>
    intro w hw _
    rw [List.length_eq_zero.mp (Nat.le_zero.mp hw)]
    exact Dyck.nil
  | succ n ih =>
    intro w hw hne
    cases w with
    | nil => exact Dyck.nil
    | cons c cs =>
      by_cases hc2 : c = ']'
      · exfalso
        have h1 := hne.1 1 (by simp)
        subst hc2
        simp [List.take_succ_cons, opens_cons, closes_cons, opens_nil, closes_nil] at h1
      · by_cases hc : c = '['
        · subst hc
          have hPex : ∃ m, 0 < m ∧ m ≤ ('[' :: cs).length ∧
              opens (('[' :: cs).take m) = closes (('[' :: cs).take m) := by
            refine ⟨('[' :: cs).length, by simp, le_refl _, ?_⟩
            rw [List.take_length]
            exact hne.2
          have hfs := Nat.find_spec hPex
          have hmin : ∀ k, k < Nat.find hPex →
              ¬(0 < k ∧ k ≤ ('[' :: cs).length ∧
                opens (('[' :: cs).take k) = closes (('[' :: cs).take k)) :=
            fun k hk => Nat.find_min hPex hk
          obtain ⟨m, hmdef⟩ : ∃ m, Nat.find hPex = m := ⟨_, rfl⟩
          rw [hmdef] at hfs hmin
          obtain ⟨hm0, hmle, hmeq⟩ := hfs
          have hlen : ('[' :: cs).length = cs.length + 1 := by simp
          -- every strict prefix of the loop body keeps the counts safe, strictly
          have hstrict : ∀ j, j + 1 < m → closes (cs.take j) ≤ opens (cs.take j) := by
            intro j hj
            have hps := hne.1 (j + 1) (by omega)
            have hne3 : opens (('[' :: cs).take (j + 1)) ≠ closes (('[' :: cs).take (j + 1)) := by
              intro heq
              exact hmin (j + 1) hj ⟨by omega, by omega, heq⟩
            simp [List.take_succ_cons, opens_cons, closes_cons] at hps hne3
            omega
          have hm2 : 2 ≤ m := by
            by_contra hcon
            push_neg at hcon
            have hm1 : m = 1 := by omega
            rw [hm1] at hmeq
            simp [List.take_succ_cons, opens_cons, closes_cons, opens_nil, closes_nil] at hmeq
          obtain ⟨u, hu⟩ : ∃ u, m = u + 2 := ⟨m - 2, by omega⟩
          have hult : u < cs.length := by omega
          have htake1 : cs.take (u + 1) = cs.take u ++ [cs[u]] := by
            rw [List.take_succ, List.getElem?_eq_getElem hult]
            rfl
          -- the counts at the return point
          have hmeq2 : 1 + opens (cs.take (u + 1)) = closes (cs.take (u + 1)) := by
            rw [hu] at hmeq
            simp [List.take_succ_cons, opens_cons, closes_cons] at hmeq
            omega
          have hAB : closes (cs.take u) ≤ opens (cs.take u) := hstrict u (by omega)
          have hne_u : 1 + opens (cs.take u) ≠ closes (cs.take u) := by
            intro heq
            refine hmin (u + 1) (by omega) ⟨by omega, by omega, ?_⟩
            simp [List.take_succ_cons, opens_cons, closes_cons]
            omega
          -- the character at the return point is the matching loop-close
          have hx : cs[u] = ']' ∧ opens (cs.take u) = closes (cs.take u) := by
            rw [htake1, opens_append, closes_append] at hmeq2
            by_cases h1 : cs[u] = '['
            · exfalso
              simp [opens_cons, closes_cons, opens_nil, closes_nil, h1] at hmeq2
              omega
            · by_cases h2 : cs[u] = ']'
              · refine ⟨h2, ?_⟩
                simp [opens_cons, closes_cons, opens_nil, closes_nil, h2] at hmeq2
                omega
              · exfalso
                simp [opens_cons, closes_cons, opens_nil, closes_nil, h1, h2] at hmeq2
                omega
          have hcs_eq : cs = cs.take u ++ ']' :: cs.drop (u + 1) := by
            conv_lhs => rw [← List.take_append_drop u cs]
            congr 1
            rw [List.drop_eq_getElem_cons hult, hx.1]
          have hdrop : ('[' :: cs).drop m = cs.drop (u + 1) := by
            rw [hu]
            rfl
          -- the loop body is nested
          have hna : Nested (cs.take u) := by
            constructor
            · intro j hj
              have hj' : j ≤ u := by
                simp [List.length_take] at hj
                omega
              rw [List.take_take, Nat.min_eq_left hj']
              exact hstrict j (by omega)
            · exact hx.2
          -- the continuation is nested
          have hnb : Nested (cs.drop (u + 1)) := by
            have hblen : (cs.drop (u + 1)).length = cs.length - (u + 1) := by
              simp [List.length_drop]
            constructor
            · intro j hj
              have hps := hne.1 (m + j) (by omega)
              rw [List.take_add, opens_append, closes_append, hdrop] at hps
              omega
            · have hsplit : opens ('[' :: cs) = opens (('[' :: cs).take m) + opens (cs.drop (u + 1)) ∧
                  closes ('[' :: cs) = closes (('[' :: cs).take m) + closes (cs.drop (u + 1)) := by
                constructor <;>
                  · conv_lhs => rw [← List.take_append_drop m ('[' :: cs)]
                    rw [hdrop]
                    first
                      | rw [opens_append]
                      | rw [closes_append]
              have htot := hne.2
              omega
          have hda := ih (cs.take u) (by
            have := List.length_take_le u cs
            omega) hna
          have hdb := ih (cs.drop (u + 1)) (by
            simp [List.length_drop]
            omega) hnb
          have hbrak := Dyck.brak hda hdb
          rw [hcs_eq]
          exact hbrak
        · refine Dyck.plain hc hc2 (ih cs (by simpa using hw) ⟨?_, ?_⟩)
          · intro j hj
            have := hne.1 (j + 1) (by simpa using hj)
            simpa [List.take_succ_cons, opens_cons, closes_cons, hc, hc2] using this
          · have := hne.2
            simpa [opens_cons, closes_cons, hc, hc2] using this

theorem nested_dyck (w : List Char) (h : Nested w) : Dyck w :=
  nested_dyck_aux w.length w (le_refl _) h

theorem scanAux_cons_open (cs : List Char) (pos : Nat) (st : List Nat) (bm : List (Nat × Nat)) :
    scanAux ('[' :: cs) pos st bm = scanAux cs (pos + 1) (pos :: st) bm := by
  simp [scanAux]

theorem scanAux_cons_close_nil (cs : List Char) (pos : Nat) (bm : List (Nat × Nat)) :
    scanAux (']' :: cs) pos [] bm = none := by
  simp [scanAux]

theorem scanAux_cons_close (cs : List Char) (pos p : Nat) (st' : List Nat)
    (bm : List (Nat × Nat)) :
    scanAux (']' :: cs) pos (p :: st') bm = scanAux cs (pos + 1) st' ((p, pos) :: (pos, p) :: bm) := by
  simp [scanAux]

theorem scanAux_cons_other (c : Char) (cs : List Char) (pos : Nat) (st : List Nat)
    (bm : List (Nat × Nat)) (hc : c ≠ '[') (hc2 : c ≠ ']') :
    scanAux (c :: cs) pos st bm = scanAux cs (pos + 1) st bm := by
  simp [scanAux, hc, hc2]

theorem scanAux_append (xs ys : List Char) :
    ∀ (pos : Nat) (st : List Nat) (bm : List (Nat × Nat)),
      scanAux (xs ++ ys) pos st bm =
        (scanAux xs pos st bm).bind (fun r => scanAux ys (pos + xs.length) r.1 r.2) := by
  induction xs with
  | nil => intro pos st bm; simp [scanAux]
  | cons c cs ih =>
    intro pos st bm
    have harith : pos + (c :: cs).length = pos + 1 + cs.length := by simp; omega
    by_cases hc : c = '['
    · subst hc
      rw [List.cons_append, scanAux_cons_open, scanAux_cons_open, ih, harith]
    · by_cases hc2 : c = ']'
      · subst hc2
        cases st with
        | nil =>
          rw [List.cons_append, scanAux_cons_close_nil, scanAux_cons_close_nil]
          rfl
        | cons p st' =>
          rw [List.cons_append, scanAux_cons_close, scanAux_cons_close, ih, harith]
      · rw [List.cons_append, scanAux_cons_other c _ _ _ _ hc hc2,
          scanAux_cons_other c _ _ _ _ hc hc2, ih, harith]

theorem isMatch_append_right (u w : List Char) (p q : Nat) (h : isMatch w p q) :
    isMatch (u ++ w) (u.length + p) (u.length + q) := by
  obtain ⟨h1, h2, h3, h4, h5⟩ := h
  refine ⟨by omega, by simp; omega, ?_, ?_, ?_⟩
  · rw [List.getD_append_right u w ' ' _ (by omega)]
    simpa [Nat.add_sub_cancel_left] using h3
  · rw [List.getD_append_right u w ' ' _ (by omega)]
    simpa [Nat.add_sub_cancel_left] using h4
  · rw [show u.length + p + 1 = u.length + (p + 1) from by omega, seg_append_right]
    exact h5

theorem isMatch_append_left (w v : List Char) (p q : Nat) (h : isMatch w p q) :
    isMatch (w ++ v) p q := by
  obtain ⟨h1, h2, h3, h4, h5⟩ := h
  refine ⟨h1, by simp; omega, ?_, ?_, ?_⟩
  · rw [List.getD_append w v ' ' p (by omega)]
    exact h3
  · rw [List.getD_append w v ' ' q h2]
    exact h4
  · rw [seg_append_left w v _ _ (Nat.le_of_lt h2)]
    exact h5

theorem lookupNat_append_of_none (a b : List (Nat × Nat)) (k : Nat)
    (h : lookupNat a k = none) : lookupNat (a ++ b) k = lookupNat b k := by
  induction a with
  | nil => simp
  | cons kv rest ih =>
    obtain ⟨k1, v1⟩ := kv
    by_cases hk : k1 = k
    · simp [lookupNat, hk] at h
    · simp only [List.cons_append, lookupNat, if_neg hk] at h ⊢
      exact ih h

theorem lookupNat_append_of_some (a b : List (Nat × Nat)) (k v : Nat)
    (h : lookupNat a k = some v) : lookupNat (a ++ b) k = some v := by
  induction a with
  | nil => simp [lookupNat] at h
  | cons kv rest ih =>
    obtain ⟨k1, v1⟩ := kv
    by_cases hk : k1 = k
    · simp only [lookupNat, if_pos hk] at h
      simp only [List.cons_append, lookupNat, if_pos hk]
      exact h
    · simp only [lookupNat, if_neg hk] at h
      simp only [List.cons_append, lookupNat, if_neg hk]
      exact ih h

theorem lookupNat_none_of_keysBetween (ps : List (Nat × Nat)) (lo hi k : Nat)
    (hk : KeysBetween ps lo hi) (h : k < lo ∨ hi ≤ k) : lookupNat ps k = none := by
  induction ps with
  | nil => rfl
  | cons kv rest ih =>
    obtain ⟨k1, v1⟩ := kv
    have hb := hk (k1, v1) (by simp)
    have hne : k1 ≠ k := by
      simp only at hb
      omega
    simp only [lookupNat, if_neg hne]
    exact ih (fun x hx => hk x (by simp [hx]))

theorem scanAux_dyck {w : List Char} (hd : Dyck w) :
    ∀ (pos : Nat) (st : List Nat) (bm : List (Nat × Nat)),
      ∃ ps, scanAux w pos st bm = some (st, ps ++ bm) ∧
        KeysBetween ps pos (pos + w.length) ∧
        (∀ p, p < w.length → w.getD p ' ' = '[' →
          ∃ q, isMatch w p q ∧ lookupNat ps (pos + p) = some (pos + q) ∧
            lookupNat ps (pos + q) = some (pos + p)) := by
  induction hd with
  | nil =>
    intro pos st bm
    exact ⟨[], rfl, fun kv hkv => absurd hkv (List.not_mem_nil kv),
      fun p hp _ => absurd hp (by simp)⟩
  | plain hc1 hc2 hdw ih =>
    rename_i c w0
    intro pos st bm
    obtain ⟨pw, hscanw, hkeysw, hmatchw⟩ := ih (pos + 1) st bm
    refine ⟨pw, ?_, ?_, ?_⟩
    · rw [scanAux_cons_other c _ _ _ _ hc1 hc2]
      exact hscanw
    · intro kv hkv
      have := hkeysw kv hkv
      simp only [List.length_cons]
      omega
    · intro p hp hgd
      cases p with
      | zero => exact absurd hgd (by simpa using hc1)
      | succ p' =>
        obtain ⟨q, hq1, hq2, hq3⟩ := hmatchw p' (by simpa using hp) (by simpa using hgd)
        have hshift := isMatch_append_right [c] w0 p' q hq1
        refine ⟨q + 1, ?_, ?_, ?_⟩
        · simpa [show (1 : Nat) + p' = p' + 1 from by omega,
            show (1 : Nat) + q = q + 1 from by omega] using hshift
        · rw [show pos + (p' + 1) = pos + 1 + p' from by omega, hq2,
            show pos + 1 + q = pos + (q + 1) from by omega]
        · rw [show pos + (q + 1) = pos + 1 + q from by omega, hq3,
            show pos + 1 + p' = pos + (p' + 1) from by omega]
  | brak hdw hdv ihw ihv =>
    rename_i w0 v0
    intro pos st bm
    obtain ⟨pw, hscanw, hkeysw, hmatchw⟩ := ihw (pos + 1) (pos :: st) bm
    obtain ⟨pv, hscanv, hkeysv, hmatchv⟩ := ihv (pos + w0.length + 2) st
      ((pos, pos + w0.length + 1) :: (pos + w0.length + 1, pos) :: (pw ++ bm))
    have hlens' : (('[' :: w0) ++ ']' :: v0).length = w0.length + v0.length + 2 := by
      simp
      omega
    have hscan : scanAux (('[' :: w0) ++ ']' :: v0) pos st bm =
        some (st, (pv ++ (pos, pos + w0.length + 1) :: (pos + w0.length + 1, pos) :: pw) ++ bm) := by
      rw [scanAux_append, scanAux_cons_open, hscanw]
      simp only [Option.some_bind]
      rw [show pos + ('[' :: w0).length = pos + w0.length + 1 from by simp; omega,
        scanAux_cons_close,
        show pos + w0.length + 1 + 1 = pos + w0.length + 2 from by omega,
        hscanv]
      simp [List.append_assoc]
    have hkeys : KeysBetween
        (pv ++ (pos, pos + w0.length + 1) :: (pos + w0.length + 1, pos) :: pw)
        pos (pos + (('[' :: w0) ++ ']' :: v0).length) := by
      intro kv hkv
      rw [hlens']
      simp only [List.mem_append, List.mem_cons] at hkv
      rcases hkv with h | h | h | h
      · have := hkeysv kv h
        omega
      · subst h
        simp only
        omega
      · subst h
        simp only
        omega
      · have := hkeysw kv h
        omega
    refine ⟨pv ++ (pos, pos + w0.length + 1) :: (pos + w0.length + 1, pos) :: pw,
      hscan, hkeys, ?_⟩
    intro p hp hgd
    rcases Nat.lt_or_ge p 1 with h0 | h1
    · have hp0 : p = 0 := by omega
      subst hp0
      refine ⟨w0.length + 1, ?_, ?_, ?_⟩
      · refine ⟨by omega, by rw [hlens']; omega, ?_, ?_, ?_⟩
        · rw [List.getD_append _ _ ' ' 0 (by simp)]
          simp
        · rw [List.getD_append_right ('[' :: w0) (']' :: v0) ' ' (w0.length + 1) (by simp)]
          simp
        · have hseg : seg (('[' :: w0) ++ ']' :: v0) 1 (w0.length + 1) = w0 := by
            rw [seg_append_left _ _ _ _ (by simp)]
            simp [seg, List.take_succ_cons, List.take_length]
          rw [Nat.zero_add, hseg]
          exact dyck_nested hdw
      · rw [Nat.add_zero,
          lookupNat_append_of_none _ _ _
            (lookupNat_none_of_keysBetween pv _ _ _ hkeysv (Or.inl (by omega)))]
        simp [lookupNat]
        omega
      · rw [show pos + (w0.length + 1) = pos + w0.length + 1 from by omega,
          lookupNat_append_of_none _ _ _
            (lookupNat_none_of_keysBetween pv _ _ _ hkeysv (Or.inl (by omega)))]
        have hne : pos ≠ pos + w0.length + 1 := by omega
        simp [lookupNat, hne]
    · rcases Nat.lt_or_ge p (w0.length + 1) with hmid | hrest
      · obtain ⟨p', hp'⟩ : ∃ p', p = p' + 1 := ⟨p - 1, by omega⟩
        subst hp'
        have hp'lt : p' < w0.length := by omega
        have hgd' : w0.getD p' ' ' = '[' := by
          rw [List.getD_append _ _ ' ' _ (by simp; omega)] at hgd
          simpa using hgd
        obtain ⟨q, hq1, hq2, hq3⟩ := hmatchw p' hp'lt hgd'
        have hqlt : q < w0.length := hq1.2.1
        refine ⟨q + 1, ?_, ?_, ?_⟩
        · have hm1 := isMatch_append_right ['['] w0 p' q hq1
          have hm2 : isMatch ('[' :: w0) (1 + p') (1 + q) := by simpa using hm1
          have hm3 := isMatch_append_left ('[' :: w0) (']' :: v0) (1 + p') (1 + q) hm2
          simpa [show (1 : Nat) + p' = p' + 1 from by omega,
            show (1 : Nat) + q = q + 1 from by omega] using hm3
        · rw [show pos + (p' + 1) = pos + 1 + p' from by omega,
            lookupNat_append_of_none _ _ _
              (lookupNat_none_of_keysBetween pv _ _ _ hkeysv (Or.inl (by omega)))]
          have hne1 : pos ≠ pos + 1 + p' := by omega
          have hne2 : pos + w0.length + 1 ≠ pos + 1 + p' := by omega
          simp only [lookupNat, if_neg hne1, if_neg hne2]
          rw [hq2, show pos + 1 + q = pos + (q + 1) from by omega]
        · rw [show pos + (q + 1) = pos + 1 + q from by omega,
            lookupNat_append_of_none _ _ _
              (lookupNat_none_of_keysBetween pv _ _ _ hkeysv (Or.inl (by omega)))]
          have hne1 : pos ≠ pos + 1 + q := by omega
          have hne2 : pos + w0.length + 1 ≠ pos + 1 + q := by omega
          simp only [lookupNat, if_neg hne1, if_neg hne2]
          rw [hq3, show pos + 1 + p' = pos + (p' + 1) from by omega]
      · rcases Nat.lt_or_ge p (w0.length + 2) with hclose | hvreg
        · exfalso
          have hpe : p = w0.length + 1 := by omega
          subst hpe
          rw [List.getD_append_right _ _ ' ' _ (by simp)] at hgd
          simp at hgd
        · obtain ⟨p'', hp''⟩ : ∃ p'', p = w0.length + 2 + p'' := ⟨p - w0.length - 2, by omega⟩
          subst hp''
          have hp''lt : p'' < v0.length := by
            rw [hlens'] at hp
            omega
          have hgd'' : v0.getD p'' ' ' = '[' := by
            rw [List.getD_append_right _ _ ' ' _ (by simp; omega)] at hgd
            rw [show w0.length + 2 + p'' - ('[' :: w0).length = p'' + 1 from by simp; omega] at hgd
            simpa using hgd
          obtain ⟨q, hq1, hq2, hq3⟩ := hmatchv p'' hp''lt hgd''
          have hqlt : q < v0.length := hq1.2.1
          refine ⟨w0.length + 2 + q, ?_, ?_, ?_⟩
          · have hm1 := isMatch_append_right (('[' :: w0) ++ [']']) v0 p'' q hq1
            have hseq : ((('[' :: w0) ++ [']']) ++ v0) = (('[' :: w0) ++ ']' :: v0) := by simp
            have hu : (('[' :: w0) ++ [']']).length = w0.length + 2 := by simp
            rw [hseq, hu] at hm1
            exact hm1
          · rw [show pos + (w0.length + 2 + p'') = pos + w0.length + 2 + p'' from by omega,
              lookupNat_append_of_some _ _ _ _ hq2,
              show pos + w0.length + 2 + q = pos + (w0.length + 2 + q) from by omega]
          · rw [show pos + (w0.length + 2 + q) = pos + w0.length + 2 + q from by omega,
              lookupNat_append_of_some _ _ _ _ hq3,
              show pos + w0.length + 2 + p'' = pos + (w0.length + 2 + p'') from by omega]

theorem seg_length (s : List Char) (a b : Nat) (hb : b ≤ s.length) :
    (seg s a b).length = b - a := by
  simp [seg, List.length_drop, List.length_take]
  omega

theorem isMatch_lt_of_lt (s : List Char) (p q q' : Nat)
    (h : isMatch s p q) (h' : isMatch s p q') (hlt : q < q') : False := by
  obtain ⟨hpq, hqs, hop, hcl, hnest⟩ := h
  obtain ⟨hpq', hqs', hop', hcl', hnest'⟩ := h'
  have ht1 : (seg s (p + 1) q').take (q - p) = seg s (p + 1) (q + 1) := by
    rw [seg, List.take_drop, List.take_take,
      show p + 1 + (q - p) = q + 1 from by omega,
      Nat.min_eq_left (by omega), seg]
  have ht2 : seg s (p + 1) (q + 1) = seg s (p + 1) q ++ [s.getD q ' '] := by
    rw [seg, List.take_succ, List.getElem?_eq_getElem hqs,
      List.drop_append_of_le_length (by simp [List.length_take]; omega), seg,
      List.getD_eq_getElem s ' ' hqs]
    rfl
  have hps := hnest'.1 (q - p) (by rw [seg_length s (p + 1) q' (by omega)]; omega)
  rw [ht1, ht2, opens_append, closes_append] at hps
  have hcnt : opens [s.getD q ' '] = 0 ∧ closes [s.getD q ' '] = 1 := by
    rw [hcl]
    exact ⟨rfl, rfl⟩
  have htot := hnest.2
  omega

theorem isMatch_unique (s : List Char) (p q q' : Nat)
    (h : isMatch s p q) (h' : isMatch s p q') : q = q' := by
  rcases Nat.lt_trichotomy q q' with hlt | heq | hgt
  · exact absurd (isMatch_lt_of_lt s p q q' h h' hlt) (fun h => h)
  · exact heq
  · exact absurd (isMatch_lt_of_lt s p q' q h' h hgt) (fun h => h)

/-- C5: for every stream whose loop brackets are properly nested, the bracket
matcher (the scan shared by `interpret` and `eval`) succeeds with an empty
residual stack and produces a jump table in which every loop-open position `p`
maps to the position `q` of its syntactically matching loop-close -- the unique
`q` with `isMatch s p q` -- and that loop-close position maps back to `p`. -/
theorem c5_bracemap_correct (s : List Char) (hs : Nested s) (p : Nat)
    (hp : p < s.length) (hop : s.getD p ' ' = '[') :
    ∃ q bm, scanAux s 0 [] [] = some ([], bm) ∧ isMatch s p q ∧
      (∀ q', isMatch s p q' → q' = q) ∧
      lookupNat bm p = some q ∧ lookupNat bm q = some p := by
  obtain ⟨ps, hscan, hkeys, hmatch⟩ := scanAux_dyck (nested_dyck s hs) 0 [] []
  obtain ⟨q, hq1, hq2, hq3⟩ := hmatch p hp hop
  refine ⟨q, ps, ?_, hq1, ?_, ?_, ?_⟩
  · simpa using hscan
  · intro q' hq'
    exact isMatch_unique s p q' q hq' hq1
  · simpa using hq2
  · simpa using hq3

/-- C5 witness: `c5_bracemap_correct` applied to the nested stream `"[]"` at the
loop-open in position 0. -/
theorem c5_bracemap_correct_witness :
    (Nested ['[', ']'] ∧ (0 : Nat) < (['[', ']'] : List Char).length ∧
      (['[', ']'] : List Char).getD 0 ' ' = '[') ∧
    ∃ q bm, scanAux ['[', ']'] 0 [] [] = some ([], bm) ∧ isMatch ['[', ']'] 0 q ∧
      (∀ q', isMatch ['[', ']'] 0 q' → q' = q) ∧
      lookupNat bm 0 = some q ∧ lookupNat bm q = some 0 :=
  ⟨⟨by decide, by decide, by decide⟩,
    c5_bracemap_correct ['[', ']'] (by decide) 0 (by decide) (by decide)⟩

theorem replace2_length_le (a b : Char) (rep : List Char) (hrep : rep.length ≤ 2) :
    ∀ s : List Char, (replace2 a b rep s).length ≤ s.length := by
  have H : ∀ (n : Nat) (s : List Char), s.length ≤ n →
      (replace2 a b rep s).length ≤ s.length := by
    intro n
    induction n with
    | zero =>
      intro s hs
      rw [List.length_eq_zero.mp (Nat.le_zero.mp hs)]
      simp [replace2]
    | succ n ih =>
      intro s hs
      cases s with
      | nil => simp [replace2]
      | cons x s1 =>
        cases s1 with
        | nil => simp [replace2]
        | cons y rest =>
          simp only [List.length_cons] at hs
          by_cases hxy : x = a ∧ y = b
          · rw [replace2, if_pos hxy]
            have := ih rest (by omega)
            simp only [List.length_append, List.length_cons]
            omega
          · rw [replace2, if_neg hxy]
            have := ih (y :: rest) (by simp only [List.length_cons]; omega)
            simp only [List.length_cons] at this ⊢
            omega
  exact fun s => H s.length s (le_refl _)

theorem replace3_length_le (a b c : Char) (rep : List Char) (hrep : rep.length ≤ 3) :
    ∀ s : List Char, (replace3 a b c rep s).length ≤ s.length := by
  have H : ∀ (n : Nat) (s : List Char), s.length ≤ n →
      (replace3 a b c rep s).length ≤ s.length := by
    intro n
    induction n with
    | zero =>
      intro s hs
      rw [List.length_eq_zero.mp (Nat.le_zero.mp hs)]
      simp [replace3]
    | succ n ih =>
      intro s hs
      cases s with
      | nil => simp [replace3]
      | cons x s1 =>
        cases s1 with
        | nil => simp [replace3]
        | cons y s2 =>
          cases s2 with
          | nil => simp [replace3]
          | cons z rest =>
            simp only [List.length_cons] at hs
            by_cases hxyz : x = a ∧ y = b ∧ z = c
            · rw [replace3, if_pos hxyz]
              have := ih rest (by omega)
              simp only [List.length_append, List.length_cons]
              omega
            · rw [replace3, if_neg hxyz]
              have := ih (y :: z :: rest) (by simp only [List.length_cons]; omega)
              simp only [List.length_cons] at this ⊢
              omega
  exact fun s => H s.length s (le_refl _)

theorem replace2_length_lt (a b : Char) :
    ∀ s : List Char, contains2 a b s = true → (replace2 a b [] s).length + 2 ≤ s.length := by
  have H : ∀ (n : Nat) (s : List Char), s.length ≤ n → contains2 a b s = true →
      (replace2 a b [] s).length + 2 ≤ s.length := by
    intro n
    induction n with
    | zero =>
      intro s hs hc
      rw [List.length_eq_zero.mp (Nat.le_zero.mp hs)] at hc
      simp [contains2] at hc
    | succ n ih =>
      intro s hs hc
      cases s with
      | nil => simp [contains2] at hc
      | cons x s1 =>
        cases s1 with
        | nil => simp [contains2] at hc
        | cons y rest =>
          simp only [List.length_cons] at hs
          by_cases hxy : x = a ∧ y = b
          · rw [replace2, if_pos hxy]
            have := replace2_length_le a b [] (by simp) rest
            simp only [List.nil_append, List.length_cons]
            omega
          · rw [replace2, if_neg hxy]
            rw [contains2] at hc
            have hc2 : contains2 a b (y :: rest) = true := by
              rcases (Bool.or_eq_true _ _).mp hc with h | h
              · simp only [Bool.and_eq_true, decide_eq_true_eq] at h
                exact absurd h hxy
              · exact h
            have := ih (y :: rest) (by simp only [List.length_cons]; omega) hc2
            simp only [List.length_cons] at this ⊢
            omega
  exact fun s => H s.length s (le_refl _)

theorem replace3_length_lt (a b c : Char) :
    ∀ s : List Char, contains3 a b c s = true →
      (replace3 a b c ['c'] s).length + 2 ≤ s.length := by
  have H : ∀ (n : Nat) (s : List Char), s.length ≤ n → contains3 a b c s = true →
      (replace3 a b c ['c'] s).length + 2 ≤ s.length := by
    intro n
    induction n with
    | zero =>
      intro s hs hc
      rw [List.length_eq_zero.mp (Nat.le_zero.mp hs)] at hc
      simp [contains3] at hc
    | succ n ih =>
      intro s hs hc
      cases s with
      | nil => simp [contains3] at hc
      | cons x s1 =>
        cases s1 with
        | nil => simp [contains3] at hc
        | cons y s2 =>
          cases s2 with
          | nil => simp [contains3] at hc
          | cons z rest =>
            simp only [List.length_cons] at hs
            by_cases hxyz : x = a ∧ y = b ∧ z = c
            · rw [replace3, if_pos hxyz]
              have := replace3_length_le a b c ['c'] (by simp) rest
              simp only [List.length_append, List.length_cons, List.length_nil]
              omega
            · rw [replace3, if_neg hxyz]
              rw [contains3] at hc
              have hc2 : contains3 a b c (y :: z :: rest) = true := by
                rcases (Bool.or_eq_true _ _).mp hc with h | h
                · simp only [Bool.and_eq_true, decide_eq_true_eq] at h
                  exact absurd ⟨h.1.1, h.1.2, h.2⟩ hxyz
                · exact h
              have := ih (y :: z :: rest) (by simp only [List.length_cons]; omega) hc2
              simp only [List.length_cons] at this ⊢
              omega
  exact fun s => H s.length s (le_refl _)

theorem replace2_id (a b : Char) (rep : List Char) :
    ∀ s : List Char, contains2 a b s = false → replace2 a b rep s = s := by
  have H : ∀ (n : Nat) (s : List Char), s.length ≤ n → contains2 a b s = false →
      replace2 a b rep s = s := by
    intro n
    induction n with
    | zero =>
      intro s hs _
      rw [List.length_eq_zero.mp (Nat.le_zero.mp hs)]
      simp [replace2]
    | succ n ih =>
      intro s hs hc
      cases s with
      | nil => simp [replace2]
      | cons x s1 =>
        cases s1 with
        | nil => simp [replace2]
        | cons y rest =>
          simp only [List.length_cons] at hs
          rw [contains2] at hc
          obtain ⟨h1, h2⟩ := Bool.or_eq_false_iff.mp hc
          have hxy : ¬(x = a ∧ y = b) := by
            intro h
            rw [h.1, h.2] at h1
            simp at h1
          rw [replace2, if_neg hxy,
            ih (y :: rest) (by simp only [List.length_cons]; omega) h2]
  exact fun s => H s.length s (le_refl _)

theorem replace3_id (a b c : Char) (rep : List Char) :
    ∀ s : List Char, contains3 a b c s = false → replace3 a b c rep s = s := by
  have H : ∀ (n : Nat) (s : List Char), s.length ≤ n → contains3 a b c s = false →
      replace3 a b c rep s = s := by
    intro n
    induction n with
    | zero =>
      intro s hs _
      rw [List.length_eq_zero.mp (Nat.le_zero.mp hs)]
      simp [replace3]
    | succ n ih =>
      intro s hs hc
      cases s with
      | nil => simp [replace3]
      | cons x s1 =>
        cases s1 with
        | nil => simp [replace3]
        | cons y s2 =>
          cases s2 with
          | nil => simp [replace3]
          | cons z rest =>
            simp only [List.length_cons] at hs
            rw [contains3] at hc
            obtain ⟨h1, h2⟩ := Bool.or_eq_false_iff.mp hc
            have hxyz : ¬(x = a ∧ y = b ∧ z = c) := by
              intro h
              rw [h.1, h.2.1, h.2.2] at h1
              simp at h1
            rw [replace3, if_neg hxyz,
              ih (y :: z :: rest) (by simp only [List.length_cons]; omega) h2]
  exact fun s => H s.length s (le_refl _)

theorem phase1Step_lt (code : List Char) (h : hasPattern code = true) :
    (phase1Step code).length + 2 ≤ code.length := by
  have le2 : ∀ (a b : Char) (s : List Char), (replace2 a b [] s).length ≤ s.length :=
    fun a b s => replace2_length_le a b [] (by simp) s
  have le3 : ∀ (a b c : Char) (s : List Char), (replace3 a b c ['c'] s).length ≤ s.length :=
    fun a b c s => replace3_length_le a b c ['c'] (by simp) s
  unfold phase1Step
  by_cases h1 : contains2 '>' '<' code = true
  · have s1 := replace2_length_lt '>' '<' code h1
    have t2 := le2 '<' '>' (replace2 '>' '<' [] code)
    have t3 := le2 '+' '-' (replace2 '<' '>' [] (replace2 '>' '<' [] code))
    have t4 := le2 '-' '+'
      (replace2 '+' '-' [] (replace2 '<' '>' [] (replace2 '>' '<' [] code)))
    have t5 := le3 '[' '-' ']'
      (replace2 '-' '+' [] (replace2 '+' '-' [] (replace2 '<' '>' [] (replace2 '>' '<' [] code))))
    have t6 := le3 '[' '+' ']'
      (replace3 '[' '-' ']' ['c']
        (replace2 '-' '+' [] (replace2 '+' '-' [] (replace2 '<' '>' [] (replace2 '>' '<' [] code)))))
    omega
  · rw [replace2_id '>' '<' [] code (by simpa using h1)]
    by_cases h2 : contains2 '<' '>' code = true
    · have s1 := replace2_length_lt '<' '>' code h2
      have t3 := le2 '+' '-' (replace2 '<' '>' [] code)
      have t4 := le2 '-' '+' (replace2 '+' '-' [] (replace2 '<' '>' [] code))
      have t5 := le3 '[' '-' ']'
        (replace2 '-' '+' [] (replace2 '+' '-' [] (replace2 '<' '>' [] code)))
      have t6 := le3 '[' '+' ']'
        (replace3 '[' '-' ']' ['c']
          (replace2 '-' '+' [] (replace2 '+' '-' [] (replace2 '<' '>' [] code))))
      omega
    · rw [replace2_id '<' '>' [] code (by simpa using h2)]
      by_cases h3 : contains2 '+' '-' code = true
      · have s1 := replace2_length_lt '+' '-' code h3
        have t4 := le2 '-' '+' (replace2 '+' '-' [] code)
        have t5 := le3 '[' '-' ']' (replace2 '-' '+' [] (replace2 '+' '-' [] code))
        have t6 := le3 '[' '+' ']'
          (replace3 '[' '-' ']' ['c'] (replace2 '-' '+' [] (replace2 '+' '-' [] code)))
        omega
      · rw [replace2_id '+' '-' [] code (by simpa using h3)]
        by_cases h4 : contains2 '-' '+' code = true
        · have s1 := replace2_length_lt '-' '+' code h4
          have t5 := le3 '[' '-' ']' (replace2 '-' '+' [] code)
          have t6 := le3 '[' '+' ']' (replace3 '[' '-' ']' ['c'] (replace2 '-' '+' [] code))
          omega
        · rw [replace2_id '-' '+' [] code (by simpa using h4)]
          by_cases h5 : contains3 '[' '-' ']' code = true
          · have s1 := replace3_length_lt '[' '-' ']' code h5
            have t6 := le3 '[' '+' ']' (replace3 '[' '-' ']' ['c'] code)
            omega
          · rw [replace3_id '[' '-' ']' ['c'] code (by simpa using h5)]
            by_cases h6 : contains3 '[' '+' ']' code = true
            · exact replace3_length_lt '[' '+' ']' code h6
            · exfalso
              have e1 : contains2 '>' '<' code = false := by simpa using h1
              have e2 : contains2 '<' '>' code = false := by simpa using h2
              have e3 : contains2 '+' '-' code = false := by simpa using h3
              have e4 : contains2 '-' '+' code = false := by simpa using h4
              have e5 : contains3 '[' '-' ']' code = false := by simpa using h5
              have e6 : contains3 '[' '+' ']' code = false := by simpa using h6
              unfold hasPattern at h
              rw [e1, e2, e3, e4, e5, e6] at h
              simp at h

theorem phase1Fuel_no_pattern : ∀ (fuel : Nat) (code : List Char),
    code.length ≤ 2 * fuel → hasPattern (phase1Fuel fuel code) = false := by
  intro fuel
  induction fuel with
  | zero =>
    intro code h
    have hnil : code = [] := List.length_eq_zero.mp (by omega)
    subst hnil
    rfl
  | succ n ih =>
    intro code h
    rw [phase1Fuel]
    by_cases hp : hasPattern code = true
    · rw [if_pos hp]
      exact ih _ (by have := phase1Step_lt code hp; omega)
    · rw [if_neg hp]
      simpa using hp

/-- The iteration budget `code.length` always suffices for phase 1 to reach the
rewrite fixed point: the result of `phase1` contains no pattern, so the fueled
loop computes exactly what the unbounded `while` loop of lib.rs:540-553 does. -/
theorem phase1_no_pattern (code : List Char) : hasPattern (phase1 code) = false :=
  phase1Fuel_no_pattern code.length code (by omega)

theorem takeMoves_length : ∀ (l : List Char) (k : Int),
    (takeMoves l k).2.length ≤ l.length := by
  intro l
  induction l with
  | nil => intro k; simp [takeMoves]
  | cons x rest ih =>
    intro k
    rw [takeMoves]
    by_cases h1 : x = '>'
    · rw [if_pos h1]
      have := ih (k + 1)
      simp only [List.length_cons]
      omega
    · rw [if_neg h1]
      by_cases h2 : x = '<'
      · rw [if_pos h2]
        have := ih (k - 1)
        simp only [List.length_cons]
        omega
      · rw [if_neg h2]

theorem takeArith_length : ∀ (l : List Char) (k : Int) (g : Nat) (c : Bool),
    (takeArith l k g c).2.2.2.length ≤ l.length := by
  intro l
  induction l with
  | nil => intro k g c; simp [takeArith]
  | cons x rest ih =>
    intro k g c
    rw [takeArith]
    by_cases h1 : x = '+'
    · rw [if_pos h1]
      have := ih (k + 1) g c
      simp only [List.length_cons]
      omega
    · rw [if_neg h1]
      by_cases h2 : x = '-'
      · rw [if_pos h2]
        have := ih (k - 1) g c
        simp only [List.length_cons]
        omega
      · rw [if_neg h2]
        by_cases h3 : x = 'c'
        · rw [if_pos h3]
          have := ih 0 g true
          simp only [List.length_cons]
          omega
        · rw [if_neg h3]
          by_cases h4 : x = ','
          · rw [if_pos h4]
            have := ih 0 (g + 1) c
            simp only [List.length_cons]
            omega
          · rw [if_neg h4]

/-- The budget `s.length` is canonical for phase 2: any two sufficient budgets
produce the same statement list, so the fueled walk computes exactly what the
single pass of lib.rs:554-608 does. -/
theorem phase2Fuel_congr (debug : Bool) : ∀ (f1 f2 : Nat) (s : List Char),
    s.length ≤ f1 → s.length ≤ f2 → phase2Fuel debug f1 s = phase2Fuel debug f2 s := by
  intro f1
  induction f1 with
  | zero =>
    intro f2 s h1 _
    have hnil : s = [] := List.length_eq_zero.mp (by omega)
    subst hnil
    cases f2 <;> rfl
  | succ n ih =>
    intro f2 s h1 h2
    cases s with
    | nil => cases f2 <;> rfl
    | cons op rest =>
      cases f2 with
      | zero => simp at h2
      | succ m =>
        simp only [List.length_cons] at h1 h2
        simp only [phase2Fuel]
        by_cases hmv : op = '>' ∨ op = '<'
        · rw [if_pos hmv, if_pos hmv]
          have hl := takeMoves_length rest (if op = '>' then 1 else -1)
          rw [ih m _ (by omega) (by omega)]
        · rw [if_neg hmv, if_neg hmv]
          by_cases har : op = '+' ∨ op = '-' ∨ op = ',' ∨ op = 'c'
          · rw [if_pos har, if_pos har]
            have hl := takeArith_length rest
              (if op = '+' then 1 else if op = '-' then -1 else 0)
              (if op = ',' then 1 else 0) (op = 'c')
            rw [ih m _ (by omega) (by omega)]
          · rw [if_neg har, if_neg har]
            by_cases hdot : op = '.'
            · rw [if_pos hdot, if_pos hdot, ih m rest (by omega) (by omega)]
            · rw [if_neg hdot, if_neg hdot]
              by_cases hob : op = '['
              · rw [if_pos hob, if_pos hob, ih m rest (by omega) (by omega)]
              · rw [if_neg hob, if_neg hob]
                by_cases hcb : op = ']'
                · rw [if_pos hcb, if_pos hcb, ih m rest (by omega) (by omega)]
                · rw [if_neg hcb, if_neg hcb]
                  by_cases hsh : op = '#' ∧ debug
                  · rw [if_pos hsh, if_pos hsh, ih m rest (by omega) (by omega)]
                  · rw [if_neg hsh, if_neg hsh]
                    by_cases hpi : op = '|' ∧ debug
                    · rw [if_pos hpi, if_pos hpi, ih m rest (by omega) (by omega)]
                    · rw [if_neg hpi, if_neg hpi]

end BF
